import Mathlib

/-!
Shallow embedding of `src/rlp_serializer.c` (simple-rlp).

Buffers are modelled as `List Nat` of byte values together with an explicit
base address (`Nat`) used only by the raw-address overlap test.  A byte store
or load outside a buffer's extent is C undefined behaviour and is modelled as
the distinguished outcome `EncOutcome.ub`.  An element's source span is exactly
its byte list (the caller contract of `RlpElement_t`: `buff` points to `len`
valid bytes), so `len` is the list length.  NULL pointers are modelled by a
`Bool` flag for the destination and `Option` for pointer arguments.
-/

set_option maxRecDepth 4096

/-- Error code `ERR_RLP_EBADARG` from `ERLPError_e` (rlp_serializer.h). -/
def ERR_RLP_EBADARG : Int := -127

/-- Error code `ERR_RLP_EILLEGALMEM` from `ERLPError_e`. -/
def ERR_RLP_EILLEGALMEM : Int := -126

/-- Error code `ERR_RLP_ENOMEM` from `ERLPError_e`. -/
def ERR_RLP_ENOMEM : Int := -125

/-- `RLP_EXTENDED_LENGTH_THRESHOLD` from `rlpProtocolConstants`. -/
def RLP_EXTENDED_LENGTH_THRESHOLD : Nat := 55

/-- `RLP_OFFSET_ITEM_SHORT` (0x80). -/
def RLP_OFFSET_ITEM_SHORT : Nat := 128

/-- `RLP_OFFSET_ITEM_LONG` (0xB7). -/
def RLP_OFFSET_ITEM_LONG : Nat := 183

/-- `RLP_OFFSET_LIST_SHORT` (0xC0). -/
def RLP_OFFSET_LIST_SHORT : Nat := 192

/-- `RLP_OFFSET_LIST_LONG` (0xF7). -/
def RLP_OFFSET_LIST_LONG : Nat := 247

/-- The `RlpType_t` enum. -/
inductive RlpType where
  | invalid
  | byteArray
  | int8
  | int16
  | int32
  | int64
  | int128
  | int256
  | int512
  | int1024
deriving DecidableEq, Repr

/-- C macro `RLP_TYPE_IS_INTEGER_TYPE`: the tag lies between INT8 and INT1024. -/
def RLP_TYPE_IS_INTEGER_TYPE (t : RlpType) : Bool :=
  match t with
  | .invalid => false
  | .byteArray => false
  | _ => true

/-- `RlpElement_t`: type tag, source bytes (`buff` holds exactly the `len`
declared bytes, per the header's caller contract), and the raw base address of
the source span, used by the overlap test. -/
structure RlpElement where
  type : RlpType
  buff : List Nat
  addr : Nat
deriving DecidableEq, Repr

/-- The `len` field of `RlpElement_t`: the length of the source span. -/
def RlpElement.len (e : RlpElement) : Nat := e.buff.length

/-- `rlp_int_size_from_type` (returns a width in bytes, or `ERR_RLP_EBADARG`). -/
def rlp_int_size_from_type (t : RlpType) : Int :=
  match t with
  | .int8 => 1
  | .int16 => 2
  | .int32 => 4
  | .int64 => 8
  | .int128 => 16
  | .int256 => 32
  | .int512 => 64
  | .int1024 => 128
  | _ => ERR_RLP_EBADARG

/-- `rlp_type_mem_check`: an integer's declared length must equal its width;
byte arrays are unconstrained; anything else (RLP_TYPE_INVALID) fails. -/
def rlp_type_mem_check (buffSz : Nat) (t : RlpType) : Bool :=
  if RLP_TYPE_IS_INTEGER_TYPE t then decide ((buffSz : Int) = rlp_int_size_from_type t)
  else if t = RlpType.byteArray then true
  else false

/-- `rlp_memoverlap` (lines 67-81): the exact raw-address test of the source,
including its `>=` comparisons. -/
def rlp_memoverlap (a sza b szb : Nat) : Bool :=
  decide (a = b) || (decide (a < b) && decide (b ≤ a + sza)) ||
    (decide (b < a) && decide (a ≤ b + szb))

/-- One byte store `buf[i] = v`; a store outside the buffer is UB (`none`). -/
def writeByte (buf : List Nat) (i : Nat) (v : Nat) : Option (List Nat) :=
  if i < buf.length then some (buf.set i v) else none

/-- Destination side of `memcpy(buf + i, vs, vs.length)`, one byte at a time. -/
def writeBytes (buf : List Nat) (i : Nat) (vs : List Nat) : Option (List Nat) :=
  match vs with
  | [] => some buf
  | v :: rest =>
    match writeByte buf i v with
    | none => none
    | some b => writeBytes b (i + 1) rest

/-- Source side of `memcpy(_, src + off, n)`: reading past the source span is
UB (`none`). -/
def readBytes (src : List Nat) (off n : Nat) : Option (List Nat) :=
  if off + n ≤ src.length then some ((src.drop off).take n) else none

/-- The leading-zero scan of `rlp_encode_element` (lines 145-155): the index of
the first non-zero byte of the source span, if any. -/
def scanFirstNonzero : List Nat → Option Nat
  | [] => none
  | b :: rest => if b ≠ 0 then some 0 else (scanFirstNonzero rest).map (· + 1)

/-- The (offset, length) view of the source selected after canonicalization:
integers drop leading zero bytes (all-zero gives length 0); byte arrays keep
the whole span. -/
def canonView (e : RlpElement) : Nat × Nat :=
  if RLP_TYPE_IS_INTEGER_TYPE e.type then
    match scanFirstNonzero e.buff with
    | some i => (i, e.len - i)
    | none => (0, 0)
  else (0, e.len)

/-- The canonical payload bytes an element contributes. -/
def canonPayload (e : RlpElement) : List Nat :=
  (e.buff.drop (canonView e).1).take (canonView e).2

/-- Fuel-indexed form of the digit-count loop; `fuel ≥ n` always suffices
because the loop variable shrinks by a factor of 256 each iteration. -/
def byteCountAux : Nat → Nat → Nat
  | _, 0 => 0
  | 0, _ + 1 => 0
  | fuel + 1, n + 1 => byteCountAux fuel ((n + 1) / 256) + 1

/-- The `while (tmpLength != 0) { ++lengthOfLength; tmpLength >>= 8; }` loop
(lines 178-181) and the list-header digit count loop (lines 230-232): the
number of base-256 digits of `n`. -/
def byteCount (n : Nat) : Nat := byteCountAux n n

/-- The element long-form loop (lines 187-190): writes the big-endian length
digits at `rlpOut[i]` for `i = lengthOfLength` down to 1, low byte first. -/
def writeBEDigits (buf : List Nat) (i : Nat) (tmp : Nat) : Option (List Nat) :=
  match i with
  | 0 => some buf
  | k + 1 =>
    match writeByte buf (k + 1) (tmp % 256) with
    | none => none
    | some b => writeBEDigits b k (tmp / 256)

/-- Result of an encode call: the final destination contents together with the
C `int` return value, or UB from an out-of-bounds access. -/
inductive EncOutcome where
  | result (dst : List Nat) (ret : Int)
  | ub
deriving DecidableEq, Repr

/-- Header generation and payload copy of `rlp_encode_element` (lines 157-195),
after canonicalization produced the view `(off, clen)` into `buff`.  Note the
long-form `memcpy` (line 192) copies `clen + lengthOfLength + 1` bytes from the
source, exactly as the C does. -/
def encodeCanon (dst : List Nat) (outLen : Nat) (buff : List Nat) (off clen : Nat) : EncOutcome :=
  if clen = 0 then
    match writeByte dst 0 RLP_OFFSET_ITEM_SHORT with
    | none => .ub
    | some d => .result d 1
  else if clen = 1 ∧ (buff.getD off 0 = 0 ∨ buff.getD off 0 < RLP_OFFSET_ITEM_SHORT) then
    match buff[off]? with
    | none => .ub
    | some b0 =>
      match writeByte dst 0 b0 with
      | none => .ub
      | some d => .result d 1
  else if clen ≤ RLP_EXTENDED_LENGTH_THRESHOLD then
    match writeByte dst 0 ((RLP_OFFSET_ITEM_SHORT + clen) % 256) with
    | none => .ub
    | some d1 =>
      match readBytes buff off clen with
      | none => .ub
      | some payload =>
        match writeBytes d1 1 payload with
        | none => .ub
        | some d2 => .result d2 (Int.ofNat (clen + 1))
  else
    if outLen < clen + byteCount clen + 1 then .result dst ERR_RLP_ENOMEM
    else
      match writeByte dst 0 ((RLP_OFFSET_ITEM_LONG + byteCount clen) % 256) with
      | none => .ub
      | some d1 =>
        match writeBEDigits d1 (byteCount clen) clen with
        | none => .ub
        | some d2 =>
          match readBytes buff off (clen + byteCount clen + 1) with
          | none => .ub
          | some payload =>
            match writeBytes d2 (1 + byteCount clen) payload with
            | none => .ub
            | some d3 => .result d3 (Int.ofNat (clen + byteCount clen + 1))

/-- `rlp_encode_element` (lines 128-196).  `dstNull` models a NULL output
pointer, `elem? = none` a NULL element pointer; `dst` is the allocation behind
the output pointer and `outLen` the declared capacity `rlpEncodedOutputLen`. -/
def rlp_encode_element (dstNull : Bool) (dst : List Nat) (dstAddr outLen : Nat)
    (elem? : Option RlpElement) : EncOutcome :=
  match elem? with
  | none => .result dst ERR_RLP_EBADARG
  | some e =>
    if dstNull = true ∨ outLen = 0 ∨ e.type = RlpType.invalid ∨
        rlp_type_mem_check e.len e.type = false then
      .result dst ERR_RLP_EBADARG
    else if outLen < e.len + 1 then .result dst ERR_RLP_ENOMEM
    else if rlp_memoverlap dstAddr outLen e.addr e.len then .result dst ERR_RLP_EILLEGALMEM
    else
      encodeCanon dst outLen e.buff (canonView e).1 (canonView e).2

/-- The pre-flight pass of `rlp_encode_list` (lines 207-216): every element
needs `len + 1` bytes of the remaining space, and no element source may
overlap the destination. -/
def preflight (dstAddr outLen : Nat) : Nat → List RlpElement → Option Int
  | _, [] => none
  | space, e :: rest =>
    if space < e.len + 1 then some ERR_RLP_ENOMEM
    else if rlp_memoverlap dstAddr outLen e.addr e.len then some ERR_RLP_EILLEGALMEM
    else preflight dstAddr outLen (space - (e.len + 1)) rest

/-- The payload pass of `rlp_encode_list` (lines 221-227): encode each element
at offset `acc`, with the remaining capacity, accumulating the total. -/
def encodeElems (dstAddr outLen : Nat) : List Nat → Nat → List RlpElement → EncOutcome
  | dst, acc, [] => .result dst (Int.ofNat acc)
  | dst, acc, e :: rest =>
    match rlp_encode_element false (dst.drop acc) (dstAddr + acc) (outLen - acc) (some e) with
    | .ub => .ub
    | .result sub ret =>
      if ret < 0 then .result (dst.take acc ++ sub) ret
      else encodeElems dstAddr outLen (dst.take acc ++ sub) (acc + ret.toNat) rest

/-- The in-place shift loop (lines 241-243): iterations at indices
`hdr + k` down to `hdr`, each doing `rlpOut[i] = rlpOut[i - hdr]`. -/
def shiftIter (hdr : Nat) : Nat → List Nat → Option (List Nat)
  | 0, buf =>
    match buf[0]? with
    | none => none
    | some v => writeByte buf hdr v
  | k + 1, buf =>
    match buf[k + 1]? with
    | none => none
    | some v =>
      match writeByte buf (hdr + (k + 1)) v with
      | none => none
      | some b => shiftIter hdr k b

/-- The long list header digits loop (lines 246-249): for `i = 0` to `hdr - 1`
write `rlpOut[(hdr - 1) - i] = total >> (8 * i)`.  The first argument is the
number of remaining iterations (`hdr - i`). -/
def hdrDigitsLoop (hdr total : Nat) : Nat → Nat → List Nat → Option (List Nat)
  | 0, _, buf => some buf
  | fuel + 1, i, buf =>
    match writeByte buf (hdr - 1 - i) ((total >>> (8 * i)) % 256) with
    | none => none
    | some b => hdrDigitsLoop hdr total fuel (i + 1) b

/-- The long list header synthesis (lines 244-251): the digits loop, then the
tag byte `RLP_OFFSET_LIST_LONG + (hdr - 1)` at index 0. -/
def writeHdrLong (buf : List Nat) (hdr total : Nat) : Option (List Nat) :=
  match hdrDigitsLoop hdr total hdr 0 buf with
  | none => none
  | some b => writeByte b 0 ((RLP_OFFSET_LIST_LONG + (hdr - 1)) % 256)

/-- `listHdrByteCnt` (lines 229-234): digit count of the total, plus one more
byte for the extended length tag when the total exceeds 55. -/
def listHdrByteCnt (total : Nat) : Nat :=
  byteCount total + (if total > RLP_EXTENDED_LENGTH_THRESHOLD then 1 else 0)

/-- `rlp_encode_list` (lines 199-257). -/
def rlp_encode_list (dstNull : Bool) (dst : List Nat) (dstAddr outLen : Nat)
    (elems? : Option (List RlpElement)) : EncOutcome :=
  match elems? with
  | none => .result dst ERR_RLP_EBADARG
  | some es =>
    if dstNull = true ∨ outLen = 0 then .result dst ERR_RLP_EBADARG
    else
      match preflight dstAddr outLen outLen es with
      | some err => .result dst err
      | none =>
        match encodeElems dstAddr outLen dst 0 es with
        | .ub => .ub
        | .result d r =>
          if r < 0 then .result d r
          else
            if listHdrByteCnt r.toNat + r.toNat > outLen then .result d ERR_RLP_ENOMEM
            else
              match shiftIter (listHdrByteCnt r.toNat) r.toNat d with
              | none => .ub
              | some d2 =>
                if r.toNat > RLP_EXTENDED_LENGTH_THRESHOLD then
                  match writeHdrLong d2 (listHdrByteCnt r.toNat) r.toNat with
                  | none => .ub
                  | some d3 => .result d3 (Int.ofNat (r.toNat + listHdrByteCnt r.toNat))
                else
                  match writeByte d2 0 ((RLP_OFFSET_LIST_SHORT + r.toNat) % 256) with
                  | none => .ub
                  | some d3 => .result d3 (Int.ofNat (r.toNat + listHdrByteCnt r.toNat))

/-- Spec §4.2: the short-form item encoding of a canonical payload of length
at most 55 (empty marker, verbatim single byte below 0x80, or tagged form). -/
def shortItemBytes (p : List Nat) : List Nat :=
  if p.length = 0 then [RLP_OFFSET_ITEM_SHORT]
  else if p.length = 1 ∧ p.headD 0 < RLP_OFFSET_ITEM_SHORT then p
  else (RLP_OFFSET_ITEM_SHORT + p.length) :: p

/-- The expected encoding of one list child (short forms). -/
def childEnc (e : RlpElement) : List Nat := shortItemBytes (canonPayload e)

/-- Spec: the `k`-byte big-endian representation of `n`. -/
def beBytes : Nat → Nat → List Nat
  | 0, _ => []
  | k + 1, n => beBytes k (n / 256) ++ [n % 256]

/-- Spec §4.3: the list header bytes for a given total payload length. -/
def listHdrBytes (total : Nat) : List Nat :=
  if total ≤ RLP_EXTENDED_LENGTH_THRESHOLD then [RLP_OFFSET_LIST_SHORT + total]
  else (RLP_OFFSET_LIST_LONG + byteCount total) :: beBytes (byteCount total) total

/-- Total expected payload length of a list (sum of child encoding lengths). -/
def listTotal (es : List RlpElement) : Nat :=
  (es.map (fun e => (childEnc e).length)).sum

/-- The pre-flight lower bound: cumulative `len + 1` over the elements. -/
def sumLens (es : List RlpElement) : Nat :=
  (es.map (fun e => e.len + 1)).sum

/-- The expected concatenation of child encodings, in input order. -/
def encConcat : List RlpElement → List Nat
  | [] => []
  | e :: rest => childEnc e ++ encConcat rest

theorem byteCountAux_zero (fuel : Nat) : byteCountAux fuel 0 = 0 := by
  cases fuel <;> rfl

theorem byteCountAux_congr (n : Nat) : ∀ f g, n ≤ f → n ≤ g →
    byteCountAux f n = byteCountAux g n := by
  induction n using Nat.strong_induction_on with
  | _ n ih =>
    intro f g hf hg
    match n, f, g with
    | 0, f, g => rw [byteCountAux_zero, byteCountAux_zero]
    | n + 1, f + 1, g + 1 =>
      show byteCountAux f ((n + 1) / 256) + 1 = byteCountAux g ((n + 1) / 256) + 1
      have hlt : (n + 1) / 256 < n + 1 := Nat.div_lt_self (by omega) (by omega)
      rw [ih _ hlt f g (by omega) (by omega)]

/-- The defining recursion of the digit-count loop. -/
theorem byteCount_unfold (n : Nat) :
    byteCount n = if n = 0 then 0 else byteCount (n / 256) + 1 := by
  match n with
  | 0 => rfl
  | n + 1 =>
    have hlt : (n + 1) / 256 < n + 1 := Nat.div_lt_self (by omega) (by omega)
    show byteCountAux n ((n + 1) / 256) + 1 = _
    rw [if_neg (by omega), byteCount, byteCountAux_congr ((n + 1) / 256) n ((n + 1) / 256)
      (by omega) (le_refl _)]









theorem writeByte_eq {buf : List Nat} {i : Nat} (v : Nat) (h : i < buf.length) :
    writeByte buf i v = some (buf.set i v) := by
  simp [writeByte, h]

theorem writeBytes_eq : ∀ (vs buf : List Nat) (i : Nat), i + vs.length ≤ buf.length →
    writeBytes buf i vs = some (buf.take i ++ vs ++ buf.drop (i + vs.length)) := by
  intro vs
  induction vs with
  | nil =>
    intro buf i h
    simp [writeBytes, List.take_append_drop]
  | cons v rest ih =>
    intro buf i h
    have hi : i < buf.length := by
      simp only [List.length_cons] at h
      omega
    have hr : (i + 1) + rest.length ≤ (buf.set i v).length := by
      simp only [List.length_set, List.length_cons] at h ⊢
      omega
    rw [writeBytes, writeByte_eq v hi]
    show writeBytes (buf.set i v) (i + 1) rest = _
    rw [ih (buf.set i v) (i + 1) hr]
    have hset := List.set_eq_take_cons_drop v hi
    have hTlen : (buf.take i).length = i := by
      simp [List.length_take]
      omega
    congr 1
    have h2 : i + 1 - i = 1 := by omega
    have h3 : (i + 1 + rest.length) - i = rest.length + 1 := by omega
    have ht1 : List.take (i + 1) (List.take i buf) = List.take i buf := by
      rw [List.take_take]
      congr 1
      omega
    have hd1 : List.drop (i + 1 + rest.length) (List.take i buf) = [] :=
      List.drop_eq_nil_of_le (by rw [hTlen]; omega)
    have hd2 : List.drop (rest.length + 1) (v :: List.drop (i + 1) buf) =
        List.drop (i + 1 + rest.length) buf := by
      rw [List.drop_succ_cons, List.drop_drop]
    have h6 : i + (v :: rest).length = i + 1 + rest.length := by
      simp only [List.length_cons]
      omega
    rw [hset, List.take_append_eq_append_take, List.drop_append_eq_append_drop, ht1, hTlen,
      h2, h3, List.take_succ_cons, List.take_zero, hd1, hd2, h6]
    simp

theorem readBytes_eq {src : List Nat} {off n : Nat} (h : off + n ≤ src.length) :
    readBytes src off n = some ((src.drop off).take n) := by
  simp [readBytes, h]

theorem scanFirstNonzero_none : ∀ {bs : List Nat}, scanFirstNonzero bs = none →
    ∀ b ∈ bs, b = 0 := by
  intro bs
  induction bs with
  | nil => simp
  | cons x rest ih =>
    intro h b hb
    rw [scanFirstNonzero] at h
    by_cases hx : x = 0
    · rw [if_neg (by simp [hx])] at h
      rcases List.mem_cons.mp hb with rfl | hmem
      · exact hx
      · exact ih (Option.map_eq_none'.mp h) b hmem
    · simp [hx] at h

theorem scanFirstNonzero_some_lt : ∀ {bs : List Nat} {i : Nat},
    scanFirstNonzero bs = some i → i < bs.length := by
  intro bs
  induction bs with
  | nil => simp [scanFirstNonzero]
  | cons x rest ih =>
    intro i h
    rw [scanFirstNonzero] at h
    by_cases hx : x = 0
    · rw [if_neg (by simp [hx])] at h
      rcases Option.map_eq_some'.mp h with ⟨j, hj, rfl⟩
      simpa using ih hj
    · simp only [ne_eq, hx, not_false_eq_true, if_true, Option.some.injEq] at h
      simp [← h]

theorem scanFirstNonzero_drop : ∀ {bs : List Nat} {i : Nat},
    scanFirstNonzero bs = some i → bs.drop i = bs.dropWhile (fun b => b == 0) := by
  intro bs
  induction bs with
  | nil => simp [scanFirstNonzero]
  | cons x rest ih =>
    intro i h
    rw [scanFirstNonzero] at h
    by_cases hx : x = 0
    · rw [if_neg (by simp [hx])] at h
      rcases Option.map_eq_some'.mp h with ⟨j, hj, rfl⟩
      simpa [hx, List.dropWhile_cons] using ih hj
    · simp only [ne_eq, hx, not_false_eq_true, if_true, Option.some.injEq] at h
      simp [← h, List.dropWhile_cons, hx]

theorem scanFirstNonzero_dropWhile_nil : ∀ {bs : List Nat},
    scanFirstNonzero bs = none → bs.dropWhile (fun b => b == 0) = [] := by
  intro bs
  induction bs with
  | nil => simp
  | cons x rest ih =>
    intro h
    rw [scanFirstNonzero] at h
    by_cases hx : x = 0
    · rw [if_neg (by simp [hx])] at h
      simpa [hx, List.dropWhile] using ih (Option.map_eq_none'.mp h)
    · simp [hx] at h

theorem canonView_le (e : RlpElement) : (canonView e).1 + (canonView e).2 ≤ e.buff.length := by
  rw [canonView]
  cases hint : RLP_TYPE_IS_INTEGER_TYPE e.type with
  | true =>
    simp only [if_true]
    cases hscan : scanFirstNonzero e.buff with
    | none => simp
    | some i =>
      have hlt := scanFirstNonzero_some_lt hscan
      simp only [RlpElement.len]
      omega
  | false =>
    simp only [Bool.false_eq_true, if_false, RlpElement.len]
    omega

theorem canonPayload_length (e : RlpElement) : (canonPayload e).length = (canonView e).2 := by
  have h := canonView_le e
  rw [canonPayload]
  simp only [List.length_take, List.length_drop]
  omega

theorem take_drop_headD (buff : List Nat) (off clen : Nat) (h1 : 0 < clen)
    (_h2 : off < buff.length) :
    ((buff.drop off).take clen).headD 0 = buff.getD off 0 := by
  rw [List.headD_eq_head?, List.head?_eq_getElem?, List.getElem?_take, if_pos h1,
    List.getElem?_drop, Nat.add_zero, List.getD_eq_getElem?_getD]

theorem encodeCanon_short_eq (dst : List Nat) (outLen : Nat) (buff : List Nat) (off clen : Nat)
    (hdst : clen + 1 ≤ dst.length) (hspan : off + clen ≤ buff.length) (h55 : clen ≤ 55) :
    encodeCanon dst outLen buff off clen =
      .result (shortItemBytes ((buff.drop off).take clen) ++
          dst.drop (shortItemBytes ((buff.drop off).take clen)).length)
        (Int.ofNat (shortItemBytes ((buff.drop off).take clen)).length) := by
  have hplen : ((buff.drop off).take clen).length = clen := by
    simp only [List.length_take, List.length_drop]
    omega
  rw [encodeCanon]
  by_cases h0 : clen = 0
  · subst h0
    have hp0 : (buff.drop off).take 0 = [] := List.take_zero _
    rw [if_pos rfl, writeByte_eq _ (by omega), hp0, shortItemBytes]
    simp only [List.length_nil, if_pos rfl, List.length_cons, RLP_OFFSET_ITEM_SHORT]
    rw [List.set_eq_take_cons_drop _ (by omega)]
    simp
  · have hofflt : off < buff.length := by omega
    have hhead : ((buff.drop off).take clen).headD 0 = buff.getD off 0 :=
      take_drop_headD buff off clen (by omega) hofflt
    rw [if_neg h0]
    by_cases hC : clen = 1 ∧ (buff.getD off 0 = 0 ∨ buff.getD off 0 < RLP_OFFSET_ITEM_SHORT)
    · rw [if_pos hC, List.getElem?_eq_getElem hofflt]
      show (match writeByte dst 0 buff[off] with
        | none => EncOutcome.ub
        | some d => EncOutcome.result d 1) = _
      rw [writeByte_eq _ (by omega)]
      have hgetD : buff.getD off 0 = buff[off] := by
        rw [List.getD_eq_getElem?_getD, List.getElem?_eq_getElem hofflt, Option.getD_some]
      have hlt128 : buff.getD off 0 < RLP_OFFSET_ITEM_SHORT := by
        rcases hC.2 with h | h
        · rw [h]; simp [RLP_OFFSET_ITEM_SHORT]
        · exact h
      have hp1 : (buff.drop off).take clen = [buff[off]] := by
        rcases List.length_eq_one.mp (hplen.trans hC.1) with ⟨a, ha⟩
        rw [ha] at hhead ⊢
        simp only [List.headD_cons] at hhead
        rw [hhead, hgetD]
      rw [hp1, shortItemBytes]
      simp only [List.length_cons, List.length_nil, List.headD_cons]
      have hb128 : buff[off] < RLP_OFFSET_ITEM_SHORT := hgetD ▸ hlt128
      rw [if_neg (by omega), if_pos ⟨by trivial, hb128⟩]
      rw [List.set_eq_take_cons_drop _ (by omega)]
      simp
    · rw [if_neg hC, if_pos (show clen ≤ RLP_EXTENDED_LENGTH_THRESHOLD from h55)]
      rw [writeByte_eq _ (by omega), readBytes_eq hspan]
      show (match writeBytes (dst.set 0 ((RLP_OFFSET_ITEM_SHORT + clen) % 256)) 1
          ((buff.drop off).take clen) with
        | none => EncOutcome.ub
        | some d2 => EncOutcome.result d2 (Int.ofNat (clen + 1))) = _
      rw [writeBytes_eq _ _ 1 (by simp only [List.length_set]; omega)]
      have hmod : (RLP_OFFSET_ITEM_SHORT + clen) % 256 = RLP_OFFSET_ITEM_SHORT + clen := by
        rw [Nat.mod_eq_of_lt]
        simp only [RLP_OFFSET_ITEM_SHORT]
        omega
      have hset : (dst.set 0 (RLP_OFFSET_ITEM_SHORT + clen)) =
          (RLP_OFFSET_ITEM_SHORT + clen) :: dst.drop 1 := by
        rw [List.set_eq_take_cons_drop _ (by omega)]
        simp
      have hsiB : shortItemBytes ((buff.drop off).take clen) =
          (RLP_OFFSET_ITEM_SHORT + clen) :: (buff.drop off).take clen := by
        rw [shortItemBytes, if_neg (by omega), if_neg]
        · rw [hplen]
        · rw [hplen, hhead]
          intro hcon
          exact hC ⟨hcon.1, Or.inr hcon.2⟩
      rw [hmod, hset, hsiB]
      simp only [hplen, EncOutcome.result.injEq, List.length_cons]
      refine ⟨?_, by trivial⟩
      have hd4 : List.drop (1 + clen) ((RLP_OFFSET_ITEM_SHORT + clen) :: List.drop 1 dst) =
          List.drop (clen + 1) dst := by
        have h1c : 1 + clen = clen + 1 := by omega
        rw [h1c, List.drop_succ_cons, List.drop_drop, Nat.add_comm 1 clen]
      rw [hd4]
      have ht4 : ((RLP_OFFSET_ITEM_SHORT + clen) :: List.drop 1 dst).take 1 =
          [RLP_OFFSET_ITEM_SHORT + clen] := rfl
      rw [ht4]
      simp

theorem rlp_encode_element_short_eq (e : RlpElement) (dst : List Nat) (dstAddr outLen : Nat)
    (hty : ¬e.type = RlpType.invalid) (hmem : rlp_type_mem_check e.len e.type = true)
    (hcap : e.len + 1 ≤ outLen) (hov : rlp_memoverlap dstAddr outLen e.addr e.len = false)
    (halloc : outLen ≤ dst.length) (h55 : (canonPayload e).length ≤ 55) :
    rlp_encode_element false dst dstAddr outLen (some e) =
      .result (childEnc e ++ dst.drop (childEnc e).length) (Int.ofNat (childEnc e).length) := by
  have hle := canonView_le e
  have hplen := canonPayload_length e
  have hlen : e.len = e.buff.length := rfl
  rw [rlp_encode_element]
  rw [if_neg (by push_neg; exact ⟨by simp, by omega, hty, by simp [hmem]⟩)]
  rw [if_neg (by omega)]
  rw [if_neg (by simp [hov])]
  exact encodeCanon_short_eq dst outLen e.buff (canonView e).1 (canonView e).2
    (by omega) (by omega) (by omega)

theorem encodeCanon_neg_ret {dst : List Nat} {outLen : Nat} {buff : List Nat} {off clen : Nat}
    {d : List Nat} {r : Int} (h : encodeCanon dst outLen buff off clen = .result d r)
    (hr : r < 0) :
    d = dst ∧ r = ERR_RLP_ENOMEM ∧ RLP_EXTENDED_LENGTH_THRESHOLD < clen ∧
      outLen < clen + byteCount clen + 1 := by
  rw [encodeCanon] at h
  repeat' split at h
  all_goals first
    | exact EncOutcome.noConfusion h
    | (injection h with h1 h2
       first
        | exact ⟨h1.symm, h2.symm, by omega, by assumption⟩
        | (exfalso
           try simp only [Int.ofNat_eq_coe] at h2
           omega))

theorem dropWhile_zero_of_all {bs : List Nat} (h : ∀ b ∈ bs, b = 0) :
    bs.dropWhile (fun b => b == 0) = [] := by
  induction bs with
  | nil => rfl
  | cons x rest ih =>
    rw [List.dropWhile_cons, if_pos (by simp [h x (by simp)])]
    exact ih (fun b hb => h b (by simp [hb]))

theorem scanFirstNonzero_eq_none {bs : List Nat} (h : ∀ b ∈ bs, b = 0) :
    scanFirstNonzero bs = none := by
  induction bs with
  | nil => rfl
  | cons x rest ih =>
    rw [scanFirstNonzero, if_neg (by simpa using h x (by simp)),
      ih (fun b hb => h b (by simp [hb]))]
    rfl

theorem canonPayload_dropWhile (e : RlpElement) (hint : RLP_TYPE_IS_INTEGER_TYPE e.type = true) :
    canonPayload e = e.buff.dropWhile (fun b => b == 0) := by
  rw [canonPayload, canonView, if_pos hint]
  cases hscan : scanFirstNonzero e.buff with
  | none =>
    simp [scanFirstNonzero_dropWhile_nil hscan]
  | some i =>
    have hlt := scanFirstNonzero_some_lt hscan
    have hdw := scanFirstNonzero_drop hscan
    simp only
    rw [List.take_of_length_le (by simp [RlpElement.len, List.length_drop]), hdw]

theorem encodeCanon_long_enomem (dst : List Nat) (outLen : Nat) (buff : List Nat) (off clen : Nat)
    (h55 : RLP_EXTENDED_LENGTH_THRESHOLD < clen)
    (hcap : outLen < clen + byteCount clen + 1) :
    encodeCanon dst outLen buff off clen = .result dst ERR_RLP_ENOMEM := by
  have h55n : (55 : Nat) < clen := h55
  rw [encodeCanon, if_neg (by omega), if_neg (fun hc => by omega),
    if_neg (Nat.not_le.mpr h55), if_pos hcap]

/-- Claim C6: for every element with sufficient destination capacity, the
short forms of `rlp_encode_element` are: canonical payload length 0 gives the
single byte 0x80 and return 1; length 1 with byte below 0x80 gives that byte
verbatim and return 1 (for byte strings too); length `L ≤ 55` otherwise gives
header `0x80 + L` followed by the `L` payload bytes and return `L + 1`. -/
theorem c6_element_short_forms (e : RlpElement) (dst : List Nat) (dstAddr outLen : Nat)
    (hty : ¬e.type = RlpType.invalid) (hmem : rlp_type_mem_check e.len e.type = true)
    (hcap : e.len + 1 ≤ outLen) (halloc : dst.length = outLen)
    (hov : rlp_memoverlap dstAddr outLen e.addr e.len = false) :
    ((canonPayload e).length = 0 →
      rlp_encode_element false dst dstAddr outLen (some e) =
        .result (RLP_OFFSET_ITEM_SHORT :: dst.drop 1) 1) ∧
    ((canonPayload e).length = 1 → (canonPayload e).headD 0 < RLP_OFFSET_ITEM_SHORT →
      rlp_encode_element false dst dstAddr outLen (some e) =
        .result ((canonPayload e).headD 0 :: dst.drop 1) 1) ∧
    (1 ≤ (canonPayload e).length → (canonPayload e).length ≤ 55 →
      ¬((canonPayload e).length = 1 ∧ (canonPayload e).headD 0 < RLP_OFFSET_ITEM_SHORT) →
      rlp_encode_element false dst dstAddr outLen (some e) =
        .result ((RLP_OFFSET_ITEM_SHORT + (canonPayload e).length) :: canonPayload e ++
            dst.drop ((canonPayload e).length + 1))
          (Int.ofNat ((canonPayload e).length + 1))) := by
  refine ⟨?_, ?_, ?_⟩
  · intro h0
    have hp : canonPayload e = [] := List.eq_nil_of_length_eq_zero h0
    have heq := rlp_encode_element_short_eq e dst dstAddr outLen hty hmem hcap hov
      halloc.symm.le (by omega)
    rw [heq, childEnc, hp, shortItemBytes]
    simp
  · intro h1 hh
    rcases List.length_eq_one.mp h1 with ⟨a, ha⟩
    have heq := rlp_encode_element_short_eq e dst dstAddr outLen hty hmem hcap hov
      halloc.symm.le (by omega)
    rw [heq, childEnc, shortItemBytes, if_neg (by omega), if_pos ⟨h1, hh⟩, ha]
    simp
  · intro hge1 h55c hnot
    have heq := rlp_encode_element_short_eq e dst dstAddr outLen hty hmem hcap hov
      halloc.symm.le h55c
    rw [heq, childEnc, shortItemBytes, if_neg (by omega), if_neg hnot]
    simp only [List.length_cons, List.cons_append]

/-- Claim C3: for every integer element of a supported width, the canonical
payload is the suffix of the source from the first non-zero byte (leading
zeros stripped); if all bytes are zero the canonical length is 0 and the
output is the single byte 0x80, the same as for an explicitly empty byte
string; the source is a read-only view throughout. -/
theorem c3_integer_canonicalization (e : RlpElement)
    (hint : RLP_TYPE_IS_INTEGER_TYPE e.type = true)
    (hmem : rlp_type_mem_check e.len e.type = true) :
    canonPayload e = e.buff.dropWhile (fun b => b == 0) ∧
    (∀ dst dstAddr outLen a2, (∀ b ∈ e.buff, b = 0) → dst.length = outLen →
      e.len + 1 ≤ outLen → rlp_memoverlap dstAddr outLen e.addr e.len = false →
      rlp_memoverlap dstAddr outLen a2 0 = false →
      rlp_encode_element false dst dstAddr outLen (some e) =
          .result (RLP_OFFSET_ITEM_SHORT :: dst.drop 1) 1 ∧
        rlp_encode_element false dst dstAddr outLen
            (some { type := RlpType.byteArray, buff := [], addr := a2 }) =
          .result (RLP_OFFSET_ITEM_SHORT :: dst.drop 1) 1) := by
  constructor
  · exact canonPayload_dropWhile e hint
  · intro dst dstAddr outLen a2 hzero halloc hcap hov hov2
    have hty : ¬e.type = RlpType.invalid := by
      intro hc
      rw [hc] at hint
      simp [RLP_TYPE_IS_INTEGER_TYPE] at hint
    have hp0 : canonPayload e = [] := by
      rw [canonPayload_dropWhile e hint]
      exact dropWhile_zero_of_all hzero
    constructor
    · exact (c6_element_short_forms e dst dstAddr outLen hty hmem hcap halloc hov).1
        (by rw [hp0]; rfl)
    · have h2 := c6_element_short_forms ⟨RlpType.byteArray, [], a2⟩ dst dstAddr outLen
        (fun hc => RlpType.noConfusion hc) rfl (by
          show 0 + 1 ≤ outLen
          have : e.len + 1 ≤ outLen := hcap
          omega) halloc hov2
      exact h2.1 rfl

/-- Witness for C6: the two-byte string 0xABCD encodes as `82 AB CD`, return 3. -/
theorem c6_element_short_forms_witness :
    rlp_encode_element false [0, 0, 0] 0 3 (some ⟨RlpType.byteArray, [171, 205], 100⟩) =
      .result [130, 171, 205] 3 := by
  have h := c6_element_short_forms ⟨RlpType.byteArray, [171, 205], 100⟩ [0, 0, 0] 0 3
    (by decide) (by decide) (by decide) (by decide) (by decide)
  exact (h.2.2 (by decide) (by decide) (by decide)).trans (by decide)

/-- Witness for C3: the all-zero INT32 and the empty byte string both encode
as the single byte 0x80, return 1, and the canonical payload is the
leading-zero-stripped suffix. -/
theorem c3_integer_canonicalization_witness :
    canonPayload ⟨RlpType.int32, [0, 0, 0, 0], 100⟩ =
        List.dropWhile (fun b => b == 0) [0, 0, 0, 0] ∧
    rlp_encode_element false [7, 7, 7, 7, 7] 0 5 (some ⟨RlpType.int32, [0, 0, 0, 0], 100⟩) =
        .result [128, 7, 7, 7, 7] 1 ∧
    rlp_encode_element false [7, 7, 7, 7, 7] 0 5 (some ⟨RlpType.byteArray, [], 200⟩) =
        .result [128, 7, 7, 7, 7] 1 := by
  have h := c3_integer_canonicalization ⟨RlpType.int32, [0, 0, 0, 0], 100⟩ (by decide) (by decide)
  have h2 := h.2 [7, 7, 7, 7, 7] 0 5 200 (by decide) (by decide) (by decide) (by decide)
    (by decide)
  exact ⟨h.1, h2.1.trans (by decide), h2.2.trans (by decide)⟩

/-- Claim C1 (code bug): for a 56-byte string with ample capacity the
long-form branch is taken, and the payload `memcpy` at line 192 copies
`payload_length + length_of_length + 1 = 58` bytes from the 56-byte source:
the copy reads 2 bytes past the source span (and writes 2 bytes past the
returned encoded length), which the model reports as UB.  The second conjunct
isolates the faulty read: requesting 58 bytes from the 56-byte span fails. -/
theorem c1_long_form_overread :
    rlp_encode_element false (List.replicate 60 0) 0 60
        (some ⟨RlpType.byteArray, List.replicate 56 1, 1000⟩) = .ub ∧
    readBytes (List.replicate 56 1) 0 (56 + byteCount 56 + 1) = none := by
  decide

/-- Claim C2 (code bug): encoding the empty element list into a capacity-1
buffer writes the byte 0xC0 at index 0 but returns 0, because the header byte
count loop (lines 230-232) yields 0 for a total payload of 0; the claim's
return value of 1 is not produced. -/
theorem c2_empty_list_writes_c0_returns_0 :
    rlp_encode_list false [7] 0 1 (some []) = .result [192] 0 := by
  decide

/-- Claim C5 (code bug): one single-byte element in a destination of capacity
exactly header + payload = 2: the shift loop (line 241) starts at index
`listHdrByteCnt + rlpEncodedLen = 2` and writes there, one past the checked
capacity, so the model reports UB. -/
theorem c5_shift_writes_at_capacity :
    rlp_encode_list false [0, 0] 0 2 (some [⟨RlpType.byteArray, [1], 100⟩]) = .ub := by
  decide

/-- Counterexample to C8 as stated: destination [0,2) and source [2,3) are
merely adjacent — they do not intersect (the destination ends exactly where
the source begins, second conjunct) — yet the code returns IllegalOverlap. -/
theorem c8_counterexample_adjacent :
    rlp_encode_element false [0, 0] 0 2 (some ⟨RlpType.byteArray, [5], 2⟩) =
        .result [0, 0] ERR_RLP_EILLEGALMEM ∧ 0 + 2 ≤ 2 := by
  decide

/-- Claim C7 (amended): `rlp_encode_element` returns InsufficientCapacity
exactly when the capacity is below the declared length + 1 (the up-front
check), or when the long form applies (canonical length above 55, overlap
check passed) and the capacity is below canonical length + length-of-length
+ 1; both checks precede every write, so the destination comes back
unchanged — in particular a destination of size payload_length is rejected.
(The check is conservative: it can reject capacities that would suffice for
the actual encoding when canonicalization or the verbatim byte shrink it.) -/
theorem c7_enomem_iff (e : RlpElement) (dst : List Nat) (dstAddr outLen : Nat)
    (hty : ¬e.type = RlpType.invalid) (hmem : rlp_type_mem_check e.len e.type = true)
    (hout : 0 < outLen) :
    rlp_encode_element false dst dstAddr outLen (some e) = .result dst ERR_RLP_ENOMEM ↔
      (outLen < e.len + 1 ∨
        (rlp_memoverlap dstAddr outLen e.addr e.len = false ∧
          RLP_EXTENDED_LENGTH_THRESHOLD < (canonPayload e).length ∧
          outLen < (canonPayload e).length + byteCount (canonPayload e).length + 1)) := by
  have hbad : ¬(false = true ∨ outLen = 0 ∨ e.type = RlpType.invalid ∨
      rlp_type_mem_check e.len e.type = false) := by
    push_neg
    exact ⟨by simp, by omega, hty, by simp [hmem]⟩
  constructor
  · intro h
    rw [rlp_encode_element, if_neg hbad] at h
    by_cases hc1 : outLen < e.len + 1
    · exact Or.inl hc1
    · rw [if_neg hc1] at h
      cases hov : rlp_memoverlap dstAddr outLen e.addr e.len with
      | true =>
        rw [if_pos (by simp [hov])] at h
        injection h with h1 h2
        exact absurd h2 (by norm_num [ERR_RLP_EILLEGALMEM, ERR_RLP_ENOMEM])
      | false =>
        rw [if_neg (by simp [hov])] at h
        have hneg := encodeCanon_neg_ret h (by norm_num [ERR_RLP_ENOMEM])
        refine Or.inr ⟨rfl, ?_, ?_⟩
        · rw [canonPayload_length e]
          exact hneg.2.2.1
        · rw [canonPayload_length e]
          exact hneg.2.2.2
  · intro h
    rw [rlp_encode_element, if_neg hbad]
    by_cases hc1 : outLen < e.len + 1
    · rw [if_pos hc1]
    · rcases h with h | ⟨hov, h55, hcapl⟩
      · exact absurd h hc1
      · rw [if_neg hc1, if_neg (by simp [hov])]
        rw [canonPayload_length e] at h55 hcapl
        exact encodeCanon_long_enomem dst outLen e.buff (canonView e).1 (canonView e).2 h55 hcapl

/-- Witness for C7 (amended): a one-byte string into a capacity-1 buffer is
rejected with InsufficientCapacity and the buffer is unchanged. -/
theorem c7_enomem_iff_witness :
    rlp_encode_element false [9] 0 1 (some ⟨RlpType.byteArray, [5], 100⟩) =
      .result [9] ERR_RLP_ENOMEM := by
  exact (c7_enomem_iff ⟨RlpType.byteArray, [5], 100⟩ [9] 0 1 (by decide) (by decide)
    (by decide)).mpr (Or.inl (by decide))

/-- Claim C8 (amended): with valid arguments and capacity passing the length
check, `rlp_encode_element` returns IllegalOverlap with the destination
unchanged exactly when `rlp_memoverlap` flags the pair; `rlp_memoverlap`
holds iff the two base addresses are equal, or one region starts after the
other but no later than its one-past-end address (a closed-end comparison).
Truly intersecting regions are always flagged (third conjunct), but so are
merely adjacent regions and an empty source sharing the destination start. -/
theorem c8_overlap_iff (e : RlpElement) (dst : List Nat) (dstAddr outLen : Nat)
    (hty : ¬e.type = RlpType.invalid) (hmem : rlp_type_mem_check e.len e.type = true)
    (hout : 0 < outLen) (hcap : ¬outLen < e.len + 1) :
    (rlp_encode_element false dst dstAddr outLen (some e) =
        .result dst ERR_RLP_EILLEGALMEM ↔
      rlp_memoverlap dstAddr outLen e.addr e.len = true) ∧
    (∀ a sza b szb : Nat, rlp_memoverlap a sza b szb = true ↔
      (a = b ∨ (a < b ∧ b ≤ a + sza) ∨ (b < a ∧ a ≤ b + szb))) ∧
    (∀ a sza b szb : Nat, (∃ x, a ≤ x ∧ x < a + sza ∧ b ≤ x ∧ x < b + szb) →
      rlp_memoverlap a sza b szb = true) := by
  have hbad : ¬(false = true ∨ outLen = 0 ∨ e.type = RlpType.invalid ∨
      rlp_type_mem_check e.len e.type = false) := by
    push_neg
    exact ⟨by simp, by omega, hty, by simp [hmem]⟩
  have hchar : ∀ a sza b szb : Nat, rlp_memoverlap a sza b szb = true ↔
      (a = b ∨ (a < b ∧ b ≤ a + sza) ∨ (b < a ∧ a ≤ b + szb)) := by
    intro a sza b szb
    simp [rlp_memoverlap]
    tauto
  refine ⟨?_, hchar, ?_⟩
  · constructor
    · intro h
      rw [rlp_encode_element, if_neg hbad, if_neg hcap] at h
      cases hov : rlp_memoverlap dstAddr outLen e.addr e.len with
      | true => rfl
      | false =>
        rw [if_neg (by simp [hov])] at h
        have hneg := encodeCanon_neg_ret h (by norm_num [ERR_RLP_EILLEGALMEM])
        exact absurd hneg.2.1 (by norm_num [ERR_RLP_EILLEGALMEM, ERR_RLP_ENOMEM])
    · intro hov
      rw [rlp_encode_element, if_neg hbad, if_neg hcap, if_pos (by simp [hov])]
  · intro a sza b szb ⟨x, hx1, hx2, hx3, hx4⟩
    rw [hchar]
    rcases Nat.lt_trichotomy a b with hab | hab | hab
    · exact Or.inr (Or.inl ⟨hab, by omega⟩)
    · exact Or.inl hab
    · exact Or.inr (Or.inr ⟨hab, by omega⟩)

/-- Witness for C8 (amended): the destination [0,3) and the adjacent source
[3,4) are flagged as overlapping by the closed-end interval test. -/
theorem c8_overlap_iff_witness :
    rlp_encode_element false [0, 0, 0] 0 3 (some ⟨RlpType.byteArray, [5], 3⟩) =
      .result [0, 0, 0] ERR_RLP_EILLEGALMEM := by
  exact ((c8_overlap_iff ⟨RlpType.byteArray, [5], 3⟩ [0, 0, 0] 0 3 (by decide) (by decide)
    (by decide) (by decide)).1).mpr (by decide)

theorem rlp_encode_element_neg_unchanged {dstNull : Bool} {dst : List Nat} {dstAddr outLen : Nat}
    {elem? : Option RlpElement} {d : List Nat} {r : Int}
    (h : rlp_encode_element dstNull dst dstAddr outLen elem? = .result d r) (hr : r < 0) :
    d = dst := by
  match elem? with
  | none =>
    injection h with h1 h2
    exact h1.symm
  | some e =>
    rw [rlp_encode_element] at h
    repeat' split at h
    all_goals first
      | (injection h with h1 h2
         exact h1.symm)
      | (exact (encodeCanon_neg_ret h hr).1)

theorem encodeElems_append (dstAddr outLen : Nat) (xs ys : List RlpElement) :
    ∀ (dst : List Nat) (acc : Nat),
    encodeElems dstAddr outLen dst acc (xs ++ ys) =
      match encodeElems dstAddr outLen dst acc xs with
      | .ub => .ub
      | .result d r => if r < 0 then .result d r else encodeElems dstAddr outLen d r.toNat ys := by
  induction xs with
  | nil =>
    intro dst acc
    show encodeElems dstAddr outLen dst acc ys =
      if (Int.ofNat acc) < 0 then EncOutcome.result dst (Int.ofNat acc)
      else encodeElems dstAddr outLen dst (Int.ofNat acc).toNat ys
    rw [if_neg (by rw [Int.ofNat_eq_coe]; omega)]
    rfl
  | cons e xs ih =>
    intro dst acc
    rw [List.cons_append]
    show (match rlp_encode_element false (dst.drop acc) (dstAddr + acc) (outLen - acc) (some e)
        with
      | .ub => EncOutcome.ub
      | .result sub ret =>
        if ret < 0 then EncOutcome.result (dst.take acc ++ sub) ret
        else encodeElems dstAddr outLen (dst.take acc ++ sub) (acc + ret.toNat) (xs ++ ys)) =
      match (match rlp_encode_element false (dst.drop acc) (dstAddr + acc) (outLen - acc) (some e)
          with
        | .ub => EncOutcome.ub
        | .result sub ret =>
          if ret < 0 then EncOutcome.result (dst.take acc ++ sub) ret
          else encodeElems dstAddr outLen (dst.take acc ++ sub) (acc + ret.toNat) xs) with
      | .ub => EncOutcome.ub
      | .result d r => if r < 0 then EncOutcome.result d r
          else encodeElems dstAddr outLen d r.toNat ys
    cases hel : rlp_encode_element false (dst.drop acc) (dstAddr + acc) (outLen - acc) (some e)
      with
    | ub => rfl
    | result sub ret =>
      show (if ret < 0 then EncOutcome.result (dst.take acc ++ sub) ret
          else encodeElems dstAddr outLen (dst.take acc ++ sub) (acc + ret.toNat) (xs ++ ys)) =
        match (if ret < 0 then EncOutcome.result (dst.take acc ++ sub) ret
          else encodeElems dstAddr outLen (dst.take acc ++ sub) (acc + ret.toNat) xs) with
        | .ub => EncOutcome.ub
        | .result d r => if r < 0 then EncOutcome.result d r
            else encodeElems dstAddr outLen d r.toNat ys
      by_cases hret : ret < 0
      · rw [if_pos hret, if_pos hret]
        show EncOutcome.result (dst.take acc ++ sub) ret =
          if ret < 0 then EncOutcome.result (dst.take acc ++ sub) ret
          else encodeElems dstAddr outLen (dst.take acc ++ sub) ret.toNat ys
        rw [if_pos hret]
      · rw [if_neg hret, if_neg hret]
        exact ih (dst.take acc ++ sub) (acc + ret.toNat)

/-- Claim C9: on every argument-check or pre-flight failure of
`rlp_encode_list` (NULL destination, NULL element array, zero capacity,
cumulative `len + 1` space exhaustion, or an element source overlapping the
destination), the corresponding error code is returned before any byte of the
destination has been written, so the destination comes back unchanged. -/
theorem c9_preflight_failures_atomic (dst : List Nat) (dstAddr outLen : Nat)
    (es : List RlpElement) :
    rlp_encode_list true dst dstAddr outLen (some es) = .result dst ERR_RLP_EBADARG ∧
    rlp_encode_list false dst dstAddr outLen none = .result dst ERR_RLP_EBADARG ∧
    rlp_encode_list false dst dstAddr 0 (some es) = .result dst ERR_RLP_EBADARG ∧
    (∀ err : Int, outLen ≠ 0 → preflight dstAddr outLen outLen es = some err →
      rlp_encode_list false dst dstAddr outLen (some es) = .result dst err) := by
  refine ⟨?_, ?_, ?_, ?_⟩
  · rw [rlp_encode_list, if_pos (Or.inl rfl)]
  · rfl
  · rw [rlp_encode_list, if_pos (Or.inr rfl)]
  · intro err hout hpf
    rw [rlp_encode_list, if_neg (by push_neg; exact ⟨by simp, hout⟩), hpf]

/-- Witness for C9: a three-byte element cannot fit a capacity-2 output, the
pre-flight pass reports InsufficientCapacity, and the destination is
unchanged. -/
theorem c9_preflight_failures_atomic_witness :
    rlp_encode_list false [6, 6] 0 2 (some [⟨RlpType.byteArray, [1, 2, 3], 100⟩]) =
      .result [6, 6] ERR_RLP_ENOMEM := by
  exact (c9_preflight_failures_atomic [6, 6] 0 2 [⟨RlpType.byteArray, [1, 2, 3], 100⟩]).2.2.2
    ERR_RLP_ENOMEM (by decide) (by decide)

/-- Claim C10: if the elements before `e` encode successfully (payload pass
accumulating `acc` bytes) and encoding `e` fails with a negative code `r`,
then `rlp_encode_list` aborts at once and returns exactly `r`, unwrapped. -/
theorem c10_first_error_propagates (dst : List Nat) (dstAddr outLen : Nat)
    (pre rest : List RlpElement) (e : RlpElement) (D sub : List Nat) (acc : Nat) (r : Int)
    (hout : outLen ≠ 0)
    (hpf : preflight dstAddr outLen outLen (pre ++ e :: rest) = none)
    (hpre : encodeElems dstAddr outLen dst 0 pre = .result D (Int.ofNat acc))
    (he : rlp_encode_element false (D.drop acc) (dstAddr + acc) (outLen - acc) (some e) =
      .result sub r)
    (hr : r < 0) :
    rlp_encode_list false dst dstAddr outLen (some (pre ++ e :: rest)) = .result D r := by
  have hsub : sub = D.drop acc := rlp_encode_element_neg_unchanged he hr
  have hpass : encodeElems dstAddr outLen dst 0 (pre ++ e :: rest) = .result D r := by
    rw [encodeElems_append, hpre]
    show (if (Int.ofNat acc) < 0 then EncOutcome.result D (Int.ofNat acc)
      else encodeElems dstAddr outLen D (Int.ofNat acc).toNat (e :: rest)) = _
    rw [if_neg (by rw [Int.ofNat_eq_coe]; omega)]
    show (match rlp_encode_element false (D.drop (Int.ofNat acc).toNat)
        (dstAddr + (Int.ofNat acc).toNat) (outLen - (Int.ofNat acc).toNat) (some e) with
      | .ub => EncOutcome.ub
      | .result sub ret =>
        if ret < 0 then EncOutcome.result (D.take (Int.ofNat acc).toNat ++ sub) ret
        else encodeElems dstAddr outLen (D.take (Int.ofNat acc).toNat ++ sub)
          ((Int.ofNat acc).toNat + ret.toNat) rest) = _
    have htn : (Int.ofNat acc).toNat = acc := rfl
    rw [htn, he, hsub]
    show (if r < 0 then EncOutcome.result (D.take acc ++ D.drop acc) r
      else encodeElems dstAddr outLen (D.take acc ++ D.drop acc) (acc + r.toNat) rest) = _
    rw [if_pos hr, List.take_append_drop]
  rw [rlp_encode_list, if_neg (by push_neg; exact ⟨by simp, hout⟩), hpf]
  show (match encodeElems dstAddr outLen dst 0 (pre ++ e :: rest) with
    | .ub => EncOutcome.ub
    | .result d rr =>
      if rr < 0 then EncOutcome.result d rr
      else
        if listHdrByteCnt rr.toNat + rr.toNat > outLen then EncOutcome.result d ERR_RLP_ENOMEM
        else
          match shiftIter (listHdrByteCnt rr.toNat) rr.toNat d with
          | none => EncOutcome.ub
          | some d2 =>
            if rr.toNat > RLP_EXTENDED_LENGTH_THRESHOLD then
              match writeHdrLong d2 (listHdrByteCnt rr.toNat) rr.toNat with
              | none => EncOutcome.ub
              | some d3 => EncOutcome.result d3 (Int.ofNat (rr.toNat + listHdrByteCnt rr.toNat))
            else
              match writeByte d2 0 ((RLP_OFFSET_LIST_SHORT + rr.toNat) % 256) with
              | none => EncOutcome.ub
              | some d3 =>
                EncOutcome.result d3 (Int.ofNat (rr.toNat + listHdrByteCnt rr.toNat))) = _
  rw [hpass]
  show (if r < 0 then EncOutcome.result D r else _) = _
  rw [if_pos hr]

/-- Witness for C10: a list whose single element has the INVALID type passes
the pre-flight checks but fails in the payload pass; the list returns that
element's BadArgument code with the destination unchanged. -/
theorem c10_first_error_propagates_witness :
    rlp_encode_list false [4, 4] 0 2 (some ([] ++ ⟨RlpType.invalid, [], 100⟩ :: [])) =
      .result [4, 4] ERR_RLP_EBADARG := by
  exact c10_first_error_propagates [4, 4] 0 2 [] [] ⟨RlpType.invalid, [], 100⟩ [4, 4] [4, 4] 0
    ERR_RLP_EBADARG (by decide) (by decide) (by decide) (by decide) (by decide)

/-- Counterexample to C7 as stated: a one-byte string below 0x80 has encoded
size 1 (verbatim byte), so a capacity-1 destination is NOT smaller than the
encoded size, yet the code returns InsufficientCapacity because its check
uses declared length + 1: the "exactly when capacity < encoded size" claim
fails. -/
theorem c7_counterexample_conservative :
    rlp_encode_element false [9] 0 1 (some ⟨RlpType.byteArray, [5], 100⟩) =
        .result [9] ERR_RLP_ENOMEM ∧
    (shortItemBytes (canonPayload ⟨RlpType.byteArray, [5], 100⟩)).length ≤ 1 := by
  decide

theorem memoverlap_far {a sza b szb : Nat} (h : a + sza < b) :
    rlp_memoverlap a sza b szb = false := by
  simp only [rlp_memoverlap, Bool.or_eq_false_iff, Bool.and_eq_false_iff,
    decide_eq_false_iff_not]
  constructor
  · constructor
    · omega
    · right
      omega
  · left
    omega

theorem preflight_none (dstAddr outLen : Nat) :
    ∀ (es : List RlpElement) (space : Nat),
    (∀ e ∈ es, dstAddr + outLen < e.addr) → sumLens es ≤ space →
    preflight dstAddr outLen space es = none := by
  intro es
  induction es with
  | nil => intro space _ _; rfl
  | cons e rest ih =>
    intro space hfar hsp
    have hsl : sumLens (e :: rest) = (e.len + 1) + sumLens rest := by
      simp [sumLens]
    rw [preflight, if_neg (by omega), if_neg (by
      simp [memoverlap_far (hfar e (by simp))])]
    exact ih (space - (e.len + 1)) (fun x hx => hfar x (by simp [hx])) (by omega)

theorem listTotal_cons (e : RlpElement) (rest : List RlpElement) :
    listTotal (e :: rest) = (childEnc e).length + listTotal rest := by
  simp [listTotal]

theorem sumLens_cons (e : RlpElement) (rest : List RlpElement) :
    sumLens (e :: rest) = (e.len + 1) + sumLens rest := by
  simp [sumLens]

theorem encConcat_length (es : List RlpElement) : (encConcat es).length = listTotal es := by
  induction es with
  | nil => rfl
  | cons e rest ih =>
    rw [encConcat, List.length_append, ih, listTotal_cons]

theorem shortItemBytes_length_pos (p : List Nat) : 1 ≤ (shortItemBytes p).length := by
  rw [shortItemBytes]
  split
  · show 1 ≤ 1
    omega
  · split
    · rename_i h
      obtain ⟨h1, -⟩ := h
      omega
    · show 1 ≤ p.length + 1
      omega

theorem shortItemBytes_length_le (p : List Nat) : (shortItemBytes p).length ≤ p.length + 1 := by
  rw [shortItemBytes]
  split
  · show 1 ≤ p.length + 1
    omega
  · split
    · omega
    · show p.length + 1 ≤ p.length + 1
      omega

theorem childEnc_length_le (e : RlpElement) : (childEnc e).length ≤ e.len + 1 := by
  have h1 := shortItemBytes_length_le (canonPayload e)
  have h2 := canonPayload_length e
  have h3 := canonView_le e
  rw [childEnc]
  show _ ≤ e.buff.length + 1
  omega

theorem beBytes_length (k : Nat) : ∀ n, (beBytes k n).length = k := by
  induction k with
  | zero => intro n; rfl
  | succ k ih =>
    intro n
    rw [beBytes, List.length_append, ih]
    simp

theorem beBytes_getElem (k : Nat) : ∀ n j, j < k →
    (beBytes k n)[j]? = some ((n / 256 ^ (k - 1 - j)) % 256) := by
  induction k with
  | zero => intro n j h; omega
  | succ k ih =>
    intro n j h
    rw [beBytes, List.getElem?_append]
    by_cases hj : j < k
    · rw [if_pos (by rw [beBytes_length]; exact hj), ih (n / 256) j hj,
        Nat.div_div_eq_div_mul]
      have hpow : 256 * 256 ^ (k - 1 - j) = 256 ^ (k + 1 - 1 - j) := by
        rw [← pow_succ']
        congr 1
        omega
      rw [hpow]
    · have hjk : j = k := by omega
      subst hjk
      rw [if_neg (by rw [beBytes_length]; omega), beBytes_length]
      have h0 : j - j = 0 := by omega
      rw [h0]
      have hk : j + 1 - 1 - j = 0 := by omega
      rw [hk, pow_zero, Nat.div_one]
      rfl

theorem byteCount_eq_one {n : Nat} (h1 : 1 ≤ n) (h2 : n ≤ 255) : byteCount n = 1 := by
  rw [byteCount_unfold, if_neg (by omega)]
  have : n / 256 = 0 := by omega
  rw [this]
  rfl

theorem byteCount_le_of_lt : ∀ (k n : Nat), n < 256 ^ k → byteCount n ≤ k := by
  intro k
  induction k with
  | zero =>
    intro n h
    have : n = 0 := by simpa using h
    subst this
    simp [byteCount_unfold]
  | succ k ih =>
    intro n h
    rw [byteCount_unfold]
    split
    · omega
    · have : n / 256 < 256 ^ k := by
        rw [Nat.div_lt_iff_lt_mul (by omega)]
        calc n < 256 ^ (k + 1) := h
        _ = 256 ^ k * 256 := by rw [pow_succ]
      have := ih (n / 256) this
      omega

theorem byteCount_pos {n : Nat} (h : 0 < n) : 1 ≤ byteCount n := by
  rw [byteCount_unfold, if_neg (by omega)]
  omega

theorem take_append_left_of_le {A B : List Nat} {n : Nat} (h : n ≤ A.length) :
    (A ++ B).take n = A.take n := by
  rw [List.take_append_eq_append_take, (by omega : n - A.length = 0), List.take_zero,
    List.append_nil]

theorem encodeElems_spec (dstAddr outLen : Nat) :
    ∀ (es : List RlpElement) (dst : List Nat) (acc : Nat),
    outLen = dst.length →
    (∀ e ∈ es, ¬e.type = RlpType.invalid ∧ rlp_type_mem_check e.len e.type = true ∧
      (canonPayload e).length ≤ 55 ∧ dstAddr + outLen < e.addr) →
    acc + sumLens es ≤ outLen →
    ∃ D : List Nat,
      encodeElems dstAddr outLen dst acc es = .result D (Int.ofNat (acc + listTotal es)) ∧
      D.length = dst.length ∧ D.take acc = dst.take acc ∧
      (D.drop acc).take (listTotal es) = encConcat es := by
  intro es
  induction es with
  | nil =>
    intro dst acc hlen hel hcap
    refine ⟨dst, ?_, rfl, rfl, ?_⟩
    · show EncOutcome.result dst (Int.ofNat acc) = _
      have h0 : acc + listTotal [] = acc := by simp [listTotal]
      rw [h0]
    · simp [listTotal, encConcat]
  | cons e rest ih =>
    intro dst acc hlen hel hcap
    obtain ⟨hty, hmem, h55, hfar⟩ := hel e (by simp)
    have hsum := sumLens_cons e rest
    have hacc_le : acc + e.len + 1 ≤ outLen := by omega
    have hL_le : (childEnc e).length ≤ e.len + 1 := childEnc_length_le e
    have hovl : rlp_memoverlap (dstAddr + acc) (outLen - acc) e.addr e.len = false := by
      apply memoverlap_far
      omega
    have hsub_len : (dst.drop acc).length = outLen - acc := by
      rw [List.length_drop, ← hlen]
    have hel_eq := rlp_encode_element_short_eq e (dst.drop acc) (dstAddr + acc) (outLen - acc)
      hty hmem (by omega) hovl (by omega) h55
    have htake_len : (dst.take acc).length = acc := by
      rw [List.length_take]
      omega
    have hstep : encodeElems dstAddr outLen dst acc (e :: rest) =
        encodeElems dstAddr outLen
          (dst.take acc ++ (childEnc e ++ (dst.drop acc).drop (childEnc e).length))
          (acc + (childEnc e).length) rest := by
      show (match rlp_encode_element false (dst.drop acc) (dstAddr + acc) (outLen - acc) (some e)
          with
        | .ub => EncOutcome.ub
        | .result sub ret =>
          if ret < 0 then EncOutcome.result (dst.take acc ++ sub) ret
          else encodeElems dstAddr outLen (dst.take acc ++ sub) (acc + ret.toNat) rest) = _
      rw [hel_eq]
      show (if (Int.ofNat (childEnc e).length) < 0 then
          EncOutcome.result
            (dst.take acc ++ (childEnc e ++ (dst.drop acc).drop (childEnc e).length))
            (Int.ofNat (childEnc e).length)
        else encodeElems dstAddr outLen
          (dst.take acc ++ (childEnc e ++ (dst.drop acc).drop (childEnc e).length))
          (acc + (Int.ofNat (childEnc e).length).toNat) rest) = _
      rw [if_neg (by rw [Int.ofNat_eq_coe]; omega)]
      rfl
    have hdst'_len :
        (dst.take acc ++ (childEnc e ++ (dst.drop acc).drop (childEnc e).length)).length =
          dst.length := by
      simp only [List.length_append, List.length_drop, htake_len]
      omega
    obtain ⟨D, hD1, hD2, hD3, hD4⟩ := ih
      (dst.take acc ++ (childEnc e ++ (dst.drop acc).drop (childEnc e).length))
      (acc + (childEnc e).length)
      (by rw [hdst'_len, hlen])
      (fun x hx => hel x (by simp [hx]))
      (by omega)
    refine ⟨D, ?_, ?_, ?_, ?_⟩
    · rw [hstep, hD1]
      have : acc + (childEnc e).length + listTotal rest = acc + listTotal (e :: rest) := by
        rw [listTotal_cons]
        omega
      rw [this]
    · rw [hD2, hdst'_len]
    · have h1 : D.take acc = (D.take (acc + (childEnc e).length)).take acc := by
        rw [List.take_take]
        congr 1
        omega
      rw [h1, hD3, List.take_take]
      have hmin : acc ⊓ (acc + (childEnc e).length) = acc := by omega
      rw [hmin, take_append_left_of_le htake_len.ge, List.take_take]
      congr 1
      omega
    · rw [listTotal_cons, List.take_add]
      have hslice1 : (D.drop acc).take (childEnc e).length = childEnc e := by
        have h2 : (D.drop acc).take (childEnc e).length =
            (D.take (acc + (childEnc e).length)).drop acc := by
          rw [List.drop_take, (by omega : acc + (childEnc e).length - acc = (childEnc e).length)]
        rw [h2, hD3]
        have h3 : (dst.take acc ++ (childEnc e ++ (dst.drop acc).drop (childEnc e).length)).take
              (acc + (childEnc e).length) =
            dst.take acc ++ (childEnc e ++ (dst.drop acc).drop (childEnc e).length).take
              ((childEnc e).length) := by
          rw [List.take_append_eq_append_take, htake_len,
            (by omega : acc + (childEnc e).length - acc = (childEnc e).length),
            List.take_of_length_le (by rw [htake_len]; omega)]
        have h5 : List.drop acc (dst.take acc ++ childEnc e) = childEnc e := by
          have h6 := List.drop_left (dst.take acc) (childEnc e)
          rw [htake_len] at h6
          exact h6
        rw [h3, List.take_left, h5]
      have hslice2 : ((D.drop acc).drop (childEnc e).length).take (listTotal rest) =
          encConcat rest := by
        rw [List.drop_drop]
        exact hD4
      rw [hslice1, hslice2, encConcat]

theorem shiftIter_spec (hdr : Nat) :
    ∀ (k : Nat) (buf : List Nat), hdr + k < buf.length →
    ∃ b2, shiftIter hdr k buf = some b2 ∧ b2.length = buf.length ∧
      (∀ j, j < hdr → b2[j]? = buf[j]?) ∧
      (∀ j, j ≤ k → b2[hdr + j]? = buf[j]?) ∧
      (∀ j, hdr + k < j → b2[j]? = buf[j]?) := by
  intro k
  induction k with
  | zero =>
    intro buf hlen
    have h0 : (0 : Nat) < buf.length := by omega
    have hh : hdr < buf.length := by omega
    refine ⟨buf.set hdr buf[0], ?_, by simp, ?_, ?_, ?_⟩
    · show (match buf[0]? with
        | none => none
        | some v => writeByte buf hdr v) = some (buf.set hdr buf[0])
      rw [List.getElem?_eq_getElem h0]
      show writeByte buf hdr buf[0] = some (buf.set hdr buf[0])
      exact writeByte_eq _ hh
    · intro j hj
      exact List.getElem?_set_ne (by omega)
    · intro j hj
      have hj0 : j = 0 := by omega
      subst hj0
      rw [Nat.add_zero, List.getElem?_set_eq_of_lt _ hh, List.getElem?_eq_getElem h0]
    · intro j hj
      exact List.getElem?_set_ne (by omega)
  | succ k ih =>
    intro buf hlen
    have hk1 : k + 1 < buf.length := by omega
    have hw : hdr + (k + 1) < buf.length := hlen
    obtain ⟨b2, hb2, hblen, hp1, hp2, hp3⟩ := ih (buf.set (hdr + (k + 1)) buf[k + 1])
      (by rw [List.length_set]; omega)
    refine ⟨b2, ?_, ?_, ?_, ?_, ?_⟩
    · show (match buf[k + 1]? with
        | none => none
        | some v =>
          match writeByte buf (hdr + (k + 1)) v with
          | none => none
          | some b => shiftIter hdr k b) = some b2
      rw [List.getElem?_eq_getElem hk1]
      show (match writeByte buf (hdr + (k + 1)) buf[k + 1] with
        | none => none
        | some b => shiftIter hdr k b) = some b2
      rw [writeByte_eq _ hw]
      exact hb2
    · rw [hblen, List.length_set]
    · intro j hj
      rw [hp1 j hj, List.getElem?_set_ne (by omega)]
    · intro j hj
      rcases Nat.lt_or_ge j (k + 1) with hjk | hjk
      · rw [hp2 j (by omega), List.getElem?_set_ne (by omega)]
      · have hje : j = k + 1 := by omega
        subst hje
        rw [hp3 (hdr + (k + 1)) (by omega), List.getElem?_set_eq_of_lt _ hw,
          List.getElem?_eq_getElem hk1]
    · intro j hj
      rw [hp3 j (by omega), List.getElem?_set_ne (by omega)]

theorem hdrDigitsLoop_spec (hdr total : Nat) :
    ∀ (fuel i : Nat) (buf : List Nat), fuel + i = hdr → hdr ≤ buf.length →
    ∃ b2, hdrDigitsLoop hdr total fuel i buf = some b2 ∧ b2.length = buf.length ∧
      (∀ p, b2[p]? = if p + i < hdr then some ((total >>> (8 * (hdr - 1 - p))) % 256)
        else buf[p]?) := by
  intro fuel
  induction fuel with
  | zero =>
    intro i buf hfi hlen
    refine ⟨buf, rfl, rfl, ?_⟩
    intro p
    rw [if_neg (by omega)]
  | succ fuel ih =>
    intro i buf hfi hlen
    have hi : i < hdr := by omega
    have hidx : hdr - 1 - i < buf.length := by omega
    obtain ⟨b2, hb2, hblen, hp⟩ := ih (i + 1) (buf.set (hdr - 1 - i) ((total >>> (8 * i)) % 256))
      (by omega) (by rw [List.length_set]; omega)
    refine ⟨b2, ?_, ?_, ?_⟩
    · show (match writeByte buf (hdr - 1 - i) ((total >>> (8 * i)) % 256) with
        | none => none
        | some b => hdrDigitsLoop hdr total fuel (i + 1) b) = some b2
      rw [writeByte_eq _ hidx]
      exact hb2
    · rw [hblen, List.length_set]
    · intro p
      rw [hp p]
      by_cases h1 : p + (i + 1) < hdr
      · rw [if_pos h1, if_pos (by omega)]
      · by_cases h2 : p + i < hdr
        · have hpe : p = hdr - 1 - i := by omega
          rw [if_neg h1, if_pos h2, hpe,
            List.getElem?_set_eq_of_lt _ hidx]
          have : hdr - 1 - (hdr - 1 - i) = i := by omega
          rw [this]
        · rw [if_neg h1, if_neg h2, List.getElem?_set_ne (by omega)]

theorem writeHdrLong_spec (buf : List Nat) (hdr total : Nat)
    (hhdr : 1 ≤ hdr) (hlen : hdr ≤ buf.length) :
    ∃ F, writeHdrLong buf hdr total = some F ∧ F.length = buf.length ∧
      F[0]? = some ((RLP_OFFSET_LIST_LONG + (hdr - 1)) % 256) ∧
      (∀ p, 1 ≤ p → p < hdr → F[p]? = some ((total >>> (8 * (hdr - 1 - p))) % 256)) ∧
      (∀ p, hdr ≤ p → F[p]? = buf[p]?) := by
  obtain ⟨b2, hb2, hblen, hp⟩ := hdrDigitsLoop_spec hdr total hdr 0 buf (by omega) hlen
  have h0lt : (0 : Nat) < b2.length := by omega
  refine ⟨b2.set 0 ((RLP_OFFSET_LIST_LONG + (hdr - 1)) % 256), ?_, by simp [hblen], ?_, ?_, ?_⟩
  · rw [writeHdrLong, hb2]
    show writeByte b2 0 _ = _
    exact writeByte_eq _ h0lt
  · rw [List.getElem?_set_eq_of_lt _ h0lt]
  · intro p hp1 hplt
    rw [List.getElem?_set_ne (by omega), hp p, if_pos (by omega)]
  · intro p hple
    rw [List.getElem?_set_ne (by omega), hp p, if_neg (by omega)]

theorem shiftRight_as_div (n m : Nat) : n >>> (8 * m) = n / 256 ^ m := by
  rw [Nat.shiftRight_eq_div_pow]
  congr 1
  rw [pow_mul]
  norm_num

theorem listHdrBytes_length (total : Nat) (h1 : 1 ≤ total) :
    (listHdrBytes total).length = listHdrByteCnt total := by
  rw [listHdrBytes, listHdrByteCnt]
  by_cases h : total ≤ RLP_EXTENDED_LENGTH_THRESHOLD
  · rw [if_pos h, if_neg (by omega)]
    have h55 : total ≤ 255 := by
      have : total ≤ 55 := h
      omega
    rw [byteCount_eq_one h1 h55]
    rfl
  · rw [if_neg h, if_pos (by omega)]
    simp [beBytes_length]

theorem rlp_encode_list_after_pass (dst : List Nat) (dstAddr outLen : Nat)
    (es : List RlpElement) (D : List Nat) (t : Nat)
    (hout : outLen ≠ 0)
    (hpf : preflight dstAddr outLen outLen es = none)
    (hpass : encodeElems dstAddr outLen dst 0 es = .result D (Int.ofNat t)) :
    rlp_encode_list false dst dstAddr outLen (some es) =
      if listHdrByteCnt t + t > outLen then .result D ERR_RLP_ENOMEM
      else
        match shiftIter (listHdrByteCnt t) t D with
        | none => .ub
        | some d2 =>
          if t > RLP_EXTENDED_LENGTH_THRESHOLD then
            match writeHdrLong d2 (listHdrByteCnt t) t with
            | none => .ub
            | some d3 => .result d3 (Int.ofNat (t + listHdrByteCnt t))
          else
            match writeByte d2 0 ((RLP_OFFSET_LIST_SHORT + t) % 256) with
            | none => .ub
            | some d3 => .result d3 (Int.ofNat (t + listHdrByteCnt t)) := by
  rw [rlp_encode_list, if_neg (by push_neg; exact ⟨by simp, hout⟩), hpf]
  show (match encodeElems dstAddr outLen dst 0 es with
    | .ub => EncOutcome.ub
    | .result d r =>
      if r < 0 then EncOutcome.result d r
      else
        if listHdrByteCnt r.toNat + r.toNat > outLen then EncOutcome.result d ERR_RLP_ENOMEM
        else
          match shiftIter (listHdrByteCnt r.toNat) r.toNat d with
          | none => EncOutcome.ub
          | some d2 =>
            if r.toNat > RLP_EXTENDED_LENGTH_THRESHOLD then
              match writeHdrLong d2 (listHdrByteCnt r.toNat) r.toNat with
              | none => EncOutcome.ub
              | some d3 => EncOutcome.result d3 (Int.ofNat (r.toNat + listHdrByteCnt r.toNat))
            else
              match writeByte d2 0 ((RLP_OFFSET_LIST_SHORT + r.toNat) % 256) with
              | none => EncOutcome.ub
              | some d3 =>
                EncOutcome.result d3 (Int.ofNat (r.toNat + listHdrByteCnt r.toNat))) = _
  rw [hpass]
  show (if (Int.ofNat t) < 0 then EncOutcome.result D (Int.ofNat t)
    else
      if listHdrByteCnt (Int.ofNat t).toNat + (Int.ofNat t).toNat > outLen then
        EncOutcome.result D ERR_RLP_ENOMEM
      else
        match shiftIter (listHdrByteCnt (Int.ofNat t).toNat) (Int.ofNat t).toNat D with
        | none => EncOutcome.ub
        | some d2 =>
          if (Int.ofNat t).toNat > RLP_EXTENDED_LENGTH_THRESHOLD then
            match writeHdrLong d2 (listHdrByteCnt (Int.ofNat t).toNat) (Int.ofNat t).toNat with
            | none => EncOutcome.ub
            | some d3 =>
              EncOutcome.result d3 (Int.ofNat ((Int.ofNat t).toNat +
                listHdrByteCnt (Int.ofNat t).toNat))
          else
            match writeByte d2 0 ((RLP_OFFSET_LIST_SHORT + (Int.ofNat t).toNat) % 256) with
            | none => EncOutcome.ub
            | some d3 =>
              EncOutcome.result d3 (Int.ofNat ((Int.ofNat t).toNat +
                listHdrByteCnt (Int.ofNat t).toNat))) = _
  rw [if_neg (by rw [Int.ofNat_eq_coe]; omega)]
  rfl

/-- Claim C4: for every non-empty element sequence that encodes successfully
into a sufficiently large destination, `rlp_encode_list`'s output is the list
header followed by the concatenation, in input order, of the child element
encodings — header byte 0xC0 + total when the total payload length is at most
55, otherwise 0xF7 + K followed by the K-byte big-endian total length — and
the return value equals header width plus total payload length. -/
theorem c4_list_structure (es : List RlpElement) (dst : List Nat) (dstAddr outLen : Nat)
    (hne : es ≠ [])
    (hlen : outLen = dst.length)
    (hel : ∀ e ∈ es, ¬e.type = RlpType.invalid ∧ rlp_type_mem_check e.len e.type = true ∧
      (canonPayload e).length ≤ 55 ∧ dstAddr + outLen < e.addr)
    (hspace : sumLens es ≤ outLen)
    (hroom : listHdrByteCnt (listTotal es) + listTotal es < outLen)
    (hsize : listTotal es < 2 ^ 64) :
    ∃ F : List Nat,
      rlp_encode_list false dst dstAddr outLen (some es) =
        .result F (Int.ofNat (listTotal es + listHdrByteCnt (listTotal es))) ∧
      F.length = dst.length ∧
      F.take (listHdrByteCnt (listTotal es) + listTotal es) =
        listHdrBytes (listTotal es) ++ encConcat es := by
  have htotpos : 1 ≤ listTotal es := by
    cases es with
    | nil => exact absurd rfl hne
    | cons e rest =>
      rw [listTotal_cons]
      have hpos := shortItemBytes_length_pos (canonPayload e)
      have hc : (childEnc e).length = (shortItemBytes (canonPayload e)).length := rfl
      omega
  have houtpos : outLen ≠ 0 := by omega
  obtain ⟨D, hD1, hD2, hD3, hD4⟩ := encodeElems_spec dstAddr outLen es dst 0 hlen hel
    (by omega)
  rw [Nat.zero_add] at hD1
  rw [List.drop_zero] at hD4
  have hpf := preflight_none dstAddr outLen es outLen (fun e he => (hel e he).2.2.2) hspace
  have hDlen : D.length = outLen := by rw [hD2, hlen]
  have hDj : ∀ j, j < listTotal es → D[j]? = (encConcat es)[j]? := by
    intro j hj
    rw [← hD4, List.getElem?_take, if_pos hj]
  rw [rlp_encode_list_after_pass dst dstAddr outLen es D (listTotal es) houtpos hpf hD1]
  rw [if_neg (by omega)]
  obtain ⟨d2, hs1, hs2, hs3, hs4, hs5⟩ := shiftIter_spec (listHdrByteCnt (listTotal es))
    (listTotal es) D (by omega)
  rw [hs1]
  have hd2len : d2.length = outLen := by rw [hs2, hDlen]
  show ∃ F : List Nat,
      (if listTotal es > RLP_EXTENDED_LENGTH_THRESHOLD then
          match writeHdrLong d2 (listHdrByteCnt (listTotal es)) (listTotal es) with
          | none => EncOutcome.ub
          | some d3 => EncOutcome.result d3
              (Int.ofNat (listTotal es + listHdrByteCnt (listTotal es)))
        else
          match writeByte d2 0 ((RLP_OFFSET_LIST_SHORT + listTotal es) % 256) with
          | none => EncOutcome.ub
          | some d3 => EncOutcome.result d3
              (Int.ofNat (listTotal es + listHdrByteCnt (listTotal es)))) =
        EncOutcome.result F (Int.ofNat (listTotal es + listHdrByteCnt (listTotal es))) ∧
      F.length = dst.length ∧
      F.take (listHdrByteCnt (listTotal es) + listTotal es) =
        listHdrBytes (listTotal es) ++ encConcat es
  by_cases h55 : listTotal es ≤ 55
  · have hnot : ¬listTotal es > RLP_EXTENDED_LENGTH_THRESHOLD := by
      show ¬listTotal es > 55
      omega
    have hhdr1 : listHdrByteCnt (listTotal es) = 1 := by
      rw [listHdrByteCnt, byteCount_eq_one htotpos (by omega), if_neg hnot]
    rw [if_neg hnot, writeByte_eq _ (by omega)]
    have hmod : (RLP_OFFSET_LIST_SHORT + listTotal es) % 256 =
        RLP_OFFSET_LIST_SHORT + listTotal es := by
      rw [Nat.mod_eq_of_lt]
      show 192 + listTotal es < 256
      omega
    refine ⟨d2.set 0 ((RLP_OFFSET_LIST_SHORT + listTotal es) % 256), rfl, ?_, ?_⟩
    · rw [List.length_set, hd2len, hlen]
    · have hHB : listHdrBytes (listTotal es) = [RLP_OFFSET_LIST_SHORT + listTotal es] := by
        rw [listHdrBytes, if_pos (show listTotal es ≤ RLP_EXTENDED_LENGTH_THRESHOLD from h55)]
      apply List.ext_getElem?
      intro n
      rw [hHB, hhdr1, List.getElem?_take]
      by_cases hn : n < 1 + listTotal es
      · rw [if_pos hn]
        rcases Nat.eq_zero_or_pos n with hn0 | hnpos
        · subst hn0
          rw [List.getElem?_set_eq_of_lt _ (by omega), hmod, List.getElem?_append,
            if_pos (by simp)]
          rfl
        · rw [List.getElem?_set_ne (by omega)]
          have h4 := hs4 (n - 1) (by omega)
          rw [hhdr1] at h4
          have hone : 1 + (n - 1) = n := by omega
          rw [hone] at h4
          rw [h4, hDj (n - 1) (by omega), List.getElem?_append,
            if_neg (by simp; omega)]
          simp
      · rw [if_neg hn, Eq.comm, List.getElem?_eq_none]
        simp only [List.length_append, List.length_cons, List.length_nil, encConcat_length]
        omega
  · have hpos : listTotal es > RLP_EXTENDED_LENGTH_THRESHOLD := by
      show listTotal es > 55
      omega
    rw [if_pos hpos]
    have hK8 : byteCount (listTotal es) ≤ 8 :=
      byteCount_le_of_lt 8 (listTotal es) (by norm_num at hsize ⊢; omega)
    have hKpos : 1 ≤ byteCount (listTotal es) := byteCount_pos (by omega)
    have hhdr : listHdrByteCnt (listTotal es) = byteCount (listTotal es) + 1 := by
      rw [listHdrByteCnt, if_pos hpos]
    obtain ⟨F, hw1, hw2, hw3, hw4, hw5⟩ := writeHdrLong_spec d2 (listHdrByteCnt (listTotal es))
      (listTotal es) (by omega) (by omega)
    rw [hw1]
    refine ⟨F, rfl, ?_, ?_⟩
    · rw [hw2, hd2len, hlen]
    · have hHB : listHdrBytes (listTotal es) =
          (RLP_OFFSET_LIST_LONG + byteCount (listTotal es)) ::
            beBytes (byteCount (listTotal es)) (listTotal es) := by
        rw [listHdrBytes, if_neg (show ¬listTotal es ≤ RLP_EXTENDED_LENGTH_THRESHOLD by
          show ¬listTotal es ≤ 55
          omega)]
      apply List.ext_getElem?
      intro n
      rw [hHB, List.getElem?_take]
      by_cases hn : n < listHdrByteCnt (listTotal es) + listTotal es
      · rw [if_pos hn]
        rcases Nat.eq_zero_or_pos n with hn0 | hnpos
        · subst hn0
          rw [hw3]
          have hm1 : listHdrByteCnt (listTotal es) - 1 = byteCount (listTotal es) := by omega
          have hmod2 : (RLP_OFFSET_LIST_LONG + (listHdrByteCnt (listTotal es) - 1)) % 256 =
              RLP_OFFSET_LIST_LONG + byteCount (listTotal es) := by
            rw [hm1, Nat.mod_eq_of_lt]
            show 247 + byteCount (listTotal es) < 256
            omega
          rw [hmod2, List.cons_append, List.getElem?_cons_zero]
        · by_cases hnh : n < listHdrByteCnt (listTotal es)
          · obtain ⟨m, rfl⟩ : ∃ m, n = m + 1 := ⟨n - 1, by omega⟩
            rw [hw4 (m + 1) (by omega) hnh, shiftRight_as_div, List.cons_append,
              List.getElem?_cons_succ, List.getElem?_append,
              if_pos (by rw [beBytes_length]; omega),
              beBytes_getElem (byteCount (listTotal es)) (listTotal es) m (by omega)]
            have hexp : listHdrByteCnt (listTotal es) - 1 - (m + 1) =
                byteCount (listTotal es) - 1 - m := by omega
            rw [hexp]
          · have h4 := hs4 (n - listHdrByteCnt (listTotal es)) (by omega)
            have hone : listHdrByteCnt (listTotal es) +
                (n - listHdrByteCnt (listTotal es)) = n := by omega
            rw [hone] at h4
            rw [hw5 n (by omega), h4, hDj (n - listHdrByteCnt (listTotal es)) (by omega)]
            rw [List.getElem?_append, if_neg (by
              simp only [List.length_cons, beBytes_length]
              omega)]
            congr 1
            simp only [List.length_cons, beBytes_length]
            omega
      · rw [if_neg hn, Eq.comm, List.getElem?_eq_none]
        simp only [List.length_append, List.length_cons, beBytes_length, encConcat_length]
        omega

/-- Witness for C4: the two-element list ["\x01\x02", "\x03"] encodes as
C4 82 01 02 03 with return value 5. -/
theorem c4_list_structure_witness :
    ∃ F : List Nat,
      rlp_encode_list false (List.replicate 8 0) 0 8
          (some [⟨RlpType.byteArray, [1, 2], 100⟩, ⟨RlpType.byteArray, [3], 200⟩]) =
        .result F (Int.ofNat (listTotal [⟨RlpType.byteArray, [1, 2], 100⟩,
            ⟨RlpType.byteArray, [3], 200⟩] +
          listHdrByteCnt (listTotal [⟨RlpType.byteArray, [1, 2], 100⟩,
            ⟨RlpType.byteArray, [3], 200⟩]))) ∧
      F.length = (List.replicate 8 0 : List Nat).length ∧
      F.take (listHdrByteCnt (listTotal [⟨RlpType.byteArray, [1, 2], 100⟩,
            ⟨RlpType.byteArray, [3], 200⟩]) +
          listTotal [⟨RlpType.byteArray, [1, 2], 100⟩, ⟨RlpType.byteArray, [3], 200⟩]) =
        listHdrBytes (listTotal [⟨RlpType.byteArray, [1, 2], 100⟩,
            ⟨RlpType.byteArray, [3], 200⟩]) ++
          encConcat [⟨RlpType.byteArray, [1, 2], 100⟩, ⟨RlpType.byteArray, [3], 200⟩] := by
  exact c4_list_structure [⟨RlpType.byteArray, [1, 2], 100⟩, ⟨RlpType.byteArray, [3], 200⟩]
    (List.replicate 8 0) 0 8 (by decide) (by decide) (by decide) (by decide) (by decide)
    (by decide)
